import Mathlib

set_option maxHeartbeats 1000000

namespace NodeBcp

/-! Shallow embedding of the node-bcp orchestration layer (src/lib/Bcp.js).
Strings are modelled as Lean strings, buffers as lists of characters, and
machine-level effects (child processes, the filesystem) as explicit trace
events driven by oracles supplying each external step's outcome. -/

/-- Decimal digit characters of a natural number (accumulator style, with a
fuel argument; fuel n + 1 always suffices).  This is the rendering JavaScript
applies when a number value is concatenated into the command line. -/
def decChars : Nat → Nat → List Char → List Char
  | 0, _, acc => acc
  | fuel + 1, n, acc =>
    let d := Char.ofNat (48 + n % 10)
    if n < 10 then d :: acc else decChars fuel (n / 10) (d :: acc)

/-- Decimal string of a natural number. -/
def natToDec (n : Nat) : String := ⟨decChars (n + 1) n []⟩

/-- One hexadecimal digit character. -/
def hexDigit (n : Nat) : Char := if n < 10 then Char.ofNat (48 + n) else Char.ofNat (87 + n)

/-- JSON escaping of one character, as performed by JSON.stringify. -/
def jsonEscapeChar (c : Char) : List Char :=
  if c = '"' then ['\\', '"']
  else if c = '\\' then ['\\', '\\']
  else if c.toNat = 8 then ['\\', 'b']
  else if c.toNat = 9 then ['\\', 't']
  else if c.toNat = 10 then ['\\', 'n']
  else if c.toNat = 12 then ['\\', 'f']
  else if c.toNat = 13 then ['\\', 'r']
  else if c.toNat < 32 then ['\\', 'u', '0', '0', hexDigit (c.toNat / 16), hexDigit (c.toNat % 16)]
  else [c]

/-- JSON.stringify applied to a string: a double-quoted, escaped form. -/
def jsonStringify (s : String) : String := ⟨'"' :: (s.data.map jsonEscapeChar).flatten ++ ['"']⟩

/-- ASCII lower-casing of a string (String.prototype.toLowerCase on the
identifiers appearing here). -/
def strToLower (s : String) : String := ⟨s.data.map Char.toLower⟩

/-- Boolean test that the first list is an initial segment of the second. -/
def isPfxOf : List Char → List Char → Bool
  | [], _ => true
  | _ :: _, [] => false
  | a :: as, b :: bs => a == b && isPfxOf as bs

/-- First index p, at or after the running position, at which the pattern is an
initial segment of the remaining suffix; mirrors String.prototype.indexOf
scanning left to right.  The position argument is the absolute index of the
head of the suffix. -/
def findFromGo (pat : List Char) : List Char → Nat → Option Nat
  | [], p => if isPfxOf pat [] then some p else none
  | c :: rest, p => if isPfxOf pat (c :: rest) then some p else findFromGo pat rest (p + 1)

/-- data.indexOf(pat, i) from JavaScript, returning none instead of -1. -/
def findFrom (data pat : List Char) (i : Nat) : Option Nat :=
  findFromGo pat (data.drop i) (min i data.length)

/-- Field descriptor as consumed by Bcp.readExport and prepareBulkInsert
(name, bcp type tag, field terminator, participation in an import). -/
structure Field where
  name : String
  type : String
  terminator : String
  inImport : Bool
deriving DecidableEq, Repr

/-- Constructor classes of Bcp.typesMap (src/lib/Bcp.js lines 399-410):
Boolean, Number and Date; tags not listed in the map fall through to none and
are treated as strings. -/
inductive TypeCons
  | boolC
  | numC
  | dateC
deriving DecidableEq, Repr

/-- Bcp.typesMap (src/lib/Bcp.js lines 399-410). -/
def typesMap : String → Option TypeCons
  | "SQLBIT" => some .boolC
  | "SQLTINYINT" => some .numC
  | "SQLSMALLINT" => some .numC
  | "SQLINT" => some .numC
  | "SQLBIGINT" => some .numC
  | "SQLFLT4" => some .numC
  | "SQLFLT8" => some .numC
  | "SQLDATETIME" => some .dateC
  | "SQLDATETIM4" => some .dateC
  | "SQLDATETIM8" => some .dateC
  | _ => none

/-- Decoded field value.  Number and Date coercions are represented
symbolically by tagging the raw string with the constructor that JavaScript
would apply (new Date(value), Number(value)). -/
inductive Value
  | null
  | str (s : String)
  | num (raw : String)
  | date (raw : String)
  | bool (b : Bool)
deriving DecidableEq, Repr

/-- The single NUL character used as the empty-string sentinel. -/
def nulStr : String := ⟨[Char.ofNat 0]⟩

/-- fieldDeserialize (src/lib/Bcp.js lines 745-767). -/
def fieldDeserialize (value : String) (field : Field) : Value :=
  if value = "" then .null
  else if value = nulStr then .str ""
  else match typesMap field.type with
    | some .dateC => .date value
    | some .numC => .num value
    | some .boolC => .bool (value == "1")
    | none => .str value

/-- One decoded row: field name paired with decoded value, in field order. -/
abbrev Row := List (String × Value)

/-- The inner for-loop of Bcp.readExport (src/lib/Bcp.js lines 445-455):
consume one value per remaining field, scanning for each field's terminator
from the running offset; none when some terminator is not found (the
break data_loop case). -/
def readFields (data : List Char) : List Field → Nat → List (String × Value) →
    Option (List (String × Value) × Nat)
  | [], i, acc => some (acc.reverse, i)
  | f :: fs, i, acc =>
    match findFrom data f.terminator.data i with
    | none => none
    | some dex =>
      readFields data fs (dex + f.terminator.data.length)
        ((f.name, fieldDeserialize ⟨(data.drop i).take (dex - i)⟩ f) :: acc)

/-- The outer while-loop of Bcp.readExport (src/lib/Bcp.js lines 441-460),
with explicit fuel; none means the fuel ran out before the loop finished. -/
def readLoop (data : List Char) (fields : List Field) : Nat → Nat → List Row → Option (List Row)
  | 0, _, _ => none
  | fuel + 1, i, acc =>
    if i < data.length then
      match readFields data fields i [] with
      | none => some acc.reverse
      | some (row, j) => readLoop data fields fuel j (row :: acc)
    else some acc.reverse

/-- Bcp.readExport applied to the decoded file contents: the canonical fuel
data.length + 1 suffices whenever the loop terminates at all. -/
def readExportModel (data : List Char) (fields : List Field) : Option (List Row) :=
  readLoop data fields (data.length + 1) 0 []

/-- Encoding of one row of raw field strings: each value followed by its
field's terminator, in field order. -/
def encodeRow : List Field → List String → List Char
  | f :: fs, v :: vs => v.data ++ f.terminator.data ++ encodeRow fs vs
  | _, _ => []

/-- Encoding of a sequence of rows. -/
def encodeRows (fields : List Field) (rows : List (List String)) : List Char :=
  (rows.map (encodeRow fields)).flatten

/-- A row of raw strings is cleanly delimited for the given fields: one value
per field, and within each value ++ terminator block the first occurrence of
the terminator is exactly at the end of the value. -/
def rowOk : List Field → List String → Bool
  | [], [] => true
  | f :: fs, v :: vs =>
    (findFrom (v.data ++ f.terminator.data) f.terminator.data 0 == some v.data.length)
      && rowOk fs vs
  | _, _ => false

/-- Decoded form of a raw row, as Bcp.readExport assembles it. -/
def decodeRow (fields : List Field) (vals : List String) : Row :=
  List.zipWith (fun f v => (f.name, fieldDeserialize v f)) fields vals

/-- Numeric value of a list of decimal digit characters. -/
def digitsToNat (ds : List Char) : Nat := ds.foldl (fun a c => 10 * a + (c.toNat - 48)) 0

/-- Attempt to match the regular expression (\d+) rows copied\. anchored at
the head of the character list: a non-empty maximal digit run followed by the
literal text, yielding the numeric value of the digit group. -/
def rowsCopiedAt (cs : List Char) : Option Nat :=
  let ds := cs.takeWhile Char.isDigit
  if ds.isEmpty then none
  else if isPfxOf (" rows copied.".data) (cs.drop ds.length) then some (digitsToNat ds)
  else none

/-- Leftmost match of (\d+) rows copied\. in the whole string, as
RegExp.prototype.exec finds it (src/lib/Bcp.js line 528). -/
def rowsCopiedScan : List Char → Option Nat
  | [] => none
  | c :: rest =>
    match rowsCopiedAt (c :: rest) with
    | some n => some n
    | none => rowsCopiedScan rest

/-- Configuration state of a Bcp instance after construction
(src/lib/Bcp.js lines 34-392).  Optional numeric and string options are
Option-valued; JavaScript truthiness makes zero and the empty string behave
like an unset option, which the segment builders reproduce. -/
structure BcpCfg where
  tmp : String := ""
  database : Option String := none
  schema : String := "dbo"
  packetSize : Option Nat := none
  batchSize : Option Nat := none
  unicode : Bool := true
  codePage : Option String := none
  errorFile : Option String := none
  useIdentity : Bool := false
  firstRow : Option Nat := none
  order : Option String := none
  rowsPerBatch : Option Nat := none
  kbPerBatch : Option Nat := none
  tabLock : Bool := false
  checkConstraints : Bool := false
  fireTriggers : Bool := false
  inputFile : Option String := none
  keepNulls : Bool := false
  readOnly : Bool := false
  lastRow : Option Nat := none
  maxErrors : Option Nat := none
  password : Option String := none
  quotedIdentifiers : Bool := false
  rowTerminator : Option String := none
  regional : Bool := false
  server : Option String := none
  fieldTerminator : Option String := none
  trusted : Bool := false
  user : Option String := none
deriving Repr

/-- Flag plus separate decimal value token, emitted only for a truthy
(set and non-zero) numeric option. -/
def numSeg (flag : String) (v : Option Nat) : List String :=
  match v with
  | none => []
  | some n => if n = 0 then [] else [flag, natToDec n]

/-- Flag plus separate JSON-escaped value token, emitted only for a truthy
(set and non-empty) string option. -/
def strSeg (flag : String) (v : Option String) : List String :=
  match v with
  | none => []
  | some s => if s = "" then [] else [flag, jsonStringify s]

/-- Bare flag token emitted only when the boolean option is set. -/
def boolSeg (flag : String) (b : Bool) : List String := if b then [flag] else []

/-- Terminator emission (src/lib/Bcp.js lines 876-888 and 896-908): when the
terminator starts with a hyphen or a forward slash the flag and the raw value
are concatenated into one token, otherwise the flag is followed by a separate
JSON-escaped token. -/
def termSeg (flag : String) (v : Option String) : List String :=
  match v with
  | none => []
  | some t =>
    if t = "" then []
    else if t.data.head? = some '-' ∨ t.data.head? = some '/' then [flag ++ t]
    else [flag, jsonStringify t]

/-- Segments of getCommonArgs preceding the row-terminator clause, in source
order (src/lib/Bcp.js lines 801-874). -/
def argsHead (b : BcpCfg) (omitFormat : Bool) : List String :=
  numSeg "-a" b.packetSize
    ++ numSeg "-b" b.batchSize
    ++ (if omitFormat then [] else if b.unicode then ["-w"] else ["-c"])
    ++ (if omitFormat then [] else strSeg "-C" b.codePage)
    ++ strSeg "-e" b.errorFile
    ++ boolSeg "-E" b.useIdentity
    ++ numSeg "-F" b.firstRow
    ++ strSeg "-i" b.inputFile
    ++ (if b.readOnly then ["-K", "ReadOnly"] else [])
    ++ boolSeg "-k" b.keepNulls
    ++ numSeg "-L" b.lastRow
    ++ numSeg "-m" b.maxErrors
    ++ boolSeg "-R" b.regional

/-- Segments of getCommonArgs through the field-terminator clause
(src/lib/Bcp.js lines 801-908). -/
def argsMain (b : BcpCfg) (omitFormat : Bool) : List String :=
  argsHead b omitFormat
    ++ termSeg "-r" (if omitFormat then none else b.rowTerminator)
    ++ strSeg "-S" b.server
    ++ termSeg "-t" (if omitFormat then none else b.fieldTerminator)

/-- Authentication clause (src/lib/Bcp.js lines 910-927): a trusted
connection emits -T and suppresses user and password entirely. -/
def authSeg (b : BcpCfg) : List String :=
  if b.trusted then ["-T"]
  else strSeg "-U" b.user ++ strSeg "-P" b.password

/-- Hint sub-list (src/lib/Bcp.js lines 929-947), in the fixed source order
ORDER, ROWS_PER_BATCH, KILOBYTES_PER_BATCH, TABLOCK, CHECK_CONSTRAINTS,
FIRE_TRIGGERS, keeping only the hints whose option is truthy. -/
def hintList (b : BcpCfg) : List String :=
  (match b.order with
    | none => []
    | some s => if s = "" then [] else ["ORDER(" ++ s ++ ")"])
    ++ (match b.rowsPerBatch with
      | none => []
      | some n => if n = 0 then [] else ["ROWS_PER_BATCH=" ++ natToDec n])
    ++ (match b.kbPerBatch with
      | none => []
      | some n => if n = 0 then [] else ["KILOBYTES_PER_BATCH=" ++ natToDec n])
    ++ (if b.tabLock then ["TABLOCK"] else [])
    ++ (if b.checkConstraints then ["CHECK_CONSTRAINTS"] else [])
    ++ (if b.fireTriggers then ["FIRE_TRIGGERS"] else [])

/-- Hint clause emission (src/lib/Bcp.js lines 949-953): when any hint
applies, a -h flag followed by the single comma-joined JSON-escaped token. -/
def hintSeg (b : BcpCfg) : List String :=
  if hintList b = [] then []
  else ["-h", jsonStringify (String.intercalate "," (hintList b))]

/-- getCommonArgs (src/lib/Bcp.js lines 801-956). -/
def getCommonArgs (b : BcpCfg) (omitFormat : Bool) : List String :=
  argsMain b omitFormat ++ authSeg b ++ hintSeg b

/-- getQualifiedTable (src/lib/Bcp.js lines 964-977). -/
def getQualifiedTable (b : BcpCfg) (table : String) : String :=
  let arg := "[" ++ table ++ "]"
  let arg := if b.schema = "" then arg else "[" ++ b.schema ++ "]." ++ arg
  let arg :=
    match b.database with
    | none => arg
    | some d => if d = "" then arg else "[" ++ d ++ "]." ++ arg
  if b.quotedIdentifiers then jsonStringify arg else arg

/-- tempFile (src/lib/Bcp.js lines 996-1000): epoch millis, random integer
and process id joined under the configured temp directory. -/
def tempFile (tmp : String) (millis rand pid : Nat) : String :=
  tmp ++ "/" ++ natToDec millis ++ "_" ++ natToDec rand ++ "_" ++ natToDec pid

/-- JavaScript value stored on an options object. -/
inductive JsVal
  | bool (b : Bool)
  | str (s : String)
  | undef
deriving DecidableEq, Repr

/-- JavaScript truthiness of an options value. -/
def truthy : JsVal → Bool
  | .bool b => b
  | .str s => s != ""
  | .undef => false

/-- String coercion of an options value. -/
def jsToStr : JsVal → String
  | .bool true => "true"
  | .bool false => "false"
  | .str s => s
  | .undef => "undefined"

/-- An options object: association list of property names to values. -/
abbrev JsObj := List (String × JsVal)

/-- Property read: the value of the first matching key, none when absent. -/
def getProp : JsObj → String → Option JsVal
  | [], _ => none
  | (k, v) :: rest, key => if k = key then some v else getProp rest key

/-- Property assignment: replace the first matching key or append the key. -/
def setProp : JsObj → String → JsVal → JsObj
  | [], key, v => [(key, v)]
  | (k, w) :: rest, key, v => if k = key then (key, v) :: rest else (k, w) :: setProp rest key v

/-- mergeOptions (src/lib/Bcp.js lines 979-991): with no overrides the
defaults are returned unchanged; otherwise each key already present in the
defaults is replaced by the override value for that key, and keys only in the
overrides are dropped. -/
def mergeOptions (defaults : JsObj) (overrides : Option JsObj) : JsObj :=
  match overrides with
  | none => defaults
  | some ov =>
    defaults.map fun kv =>
      match getProp ov kv.1 with
      | some w => (kv.1, w)
      | none => kv

/-- Truthiness of a property access on an options object: an absent property
reads as undefined, which is falsy. -/
def truthyProp (o : JsObj) (key : String) : Bool :=
  match getProp o key with
  | some v => truthy v
  | none => false

/-- Externally visible effects of an operation, in execution order. -/
inductive Effect
  | ensureDirs (p1 p2 : String)
  | formatGen (table file : String)
  | bcpOut (table file : String)
  | readFile (file : String)
  | unlink (file : String)
  | createImport (file : String)
deriving DecidableEq, Repr

/-- Parsed format descriptor as returned by the FormatFile collaborator. -/
structure FormatData where
  fields : List Field
deriving Repr

/-- Export operation details (src/lib/Bcp.js lines 497-502). -/
structure Details where
  formatFile : String
  exportFile : String
  rowCount : Nat
  stdout : Option String
deriving Repr

/-- Oracle supplying the outcomes of the external steps of bulkExport:
directory creation, format generation, the bcp out run (with its captured
stdout), the read-back of the export file, and the two parallel deletions. -/
structure ExportOracle where
  dirs : Except String Unit
  fmtGen : Except String FormatData
  exec : Except String String
  readRes : Except String (List Row)
  unlinkFmt : Except String Unit
  unlinkExp : Except String Unit

/-- Merged options of bulkExport (src/lib/Bcp.js lines 478-486): defaults
read: true, keepFiles: false, then keepFiles forced on when read is falsy. -/
def exportMergedOpts (userOpts : Option JsObj) : JsObj :=
  if truthyProp (mergeOptions [("read", .bool true), ("keepFiles", .bool false)] userOpts) "read"
  then mergeOptions [("read", .bool true), ("keepFiles", .bool false)] userOpts
  else setProp (mergeOptions [("read", .bool true), ("keepFiles", .bool false)] userOpts)
    "keepFiles" (.bool true)

/-- Format-file path chosen by bulkExport (src/lib/Bcp.js line 492). -/
def exportFormatPath (userOpts : Option JsObj) (base : String) : String :=
  match getProp (exportMergedOpts userOpts) "formatFile" with
  | some v => if truthy v then jsToStr v else base ++ "_format.xml"
  | none => base ++ "_format.xml"

/-- Export-file path chosen by bulkExport (src/lib/Bcp.js line 493). -/
def exportExportPath (userOpts : Option JsObj) (base : String) : String :=
  match getProp (exportMergedOpts userOpts) "exportFile" with
  | some v => if truthy v then jsToStr v else base ++ "_export.dat"
  | none => base ++ "_export.dat"

/-- Bcp.prototype.bulkExport (src/lib/Bcp.js lines 470-573) as a pure
function from the oracle of external outcomes to the trace of effects and the
final callback value.  Each waterfall step runs only if the previous one
succeeded; cleanup runs only on the success path and only when keepFiles is
falsy after merging. -/
def bulkExportRun (b : BcpCfg) (table : String) (userOpts : Option JsObj) (base : String)
    (orc : ExportOracle) : List Effect × Except String (Option (List Row) × Details) :=
  let opts := exportMergedOpts userOpts
  let formatFile := exportFormatPath userOpts base
  let exportFile := exportExportPath userOpts base
  let qtable := getQualifiedTable b table
  let t1 : List Effect := [.ensureDirs formatFile exportFile]
  match orc.dirs with
  | .error e => (t1, .error e)
  | .ok _ =>
    let t2 := t1 ++ [.formatGen qtable formatFile]
    match orc.fmtGen with
    | .error e => (t2, .error e)
    | .ok _ =>
      let t3 := t2 ++ [.bcpOut qtable exportFile]
      match orc.exec with
      | .error e => (t3, .error e)
      | .ok stdout =>
        let rowCount := (rowsCopiedScan stdout.data).getD 0
        let details : Details := ⟨formatFile, exportFile, rowCount, some stdout⟩
        let readStep : List Effect × Except String (Option (List Row)) :=
          if truthyProp opts "read" then
            match orc.readRes with
            | .error e => ([.readFile exportFile], .error e)
            | .ok rs => ([.readFile exportFile], .ok (some rs))
          else ([], .ok none)
        match readStep with
        | (t4, .error e) => (t3 ++ t4, .error e)
        | (t4, .ok rows) =>
          if truthyProp opts "keepFiles" then (t3 ++ t4, .ok (rows, details))
          else
            let t5 := t3 ++ t4 ++ [.unlink formatFile, .unlink exportFile]
            match orc.unlinkFmt, orc.unlinkExp with
            | .ok _, .ok _ => (t5, .ok (rows, details))
            | .error e, _ => (t5, .error e)
            | _, .error e => (t5, .error e)

/-- Index of the first string equal to the key, none when absent
(Array.prototype.indexOf returning -1). -/
def idxOfStr : List String → String → Option Nat
  | [], _ => none
  | s :: rest, key => if s = key then some 0 else (idxOfStr rest key).map (· + 1)

/-- In-place update of one list element. -/
def updateAt : List α → Nat → (α → α) → List α
  | [], _, _ => []
  | a :: as, 0, g => g a :: as
  | a :: as, n + 1, g => a :: updateAt as n g

/-- The column-validation loop of prepareBulkInsert (src/lib/Bcp.js lines
679-694): the lower-cased original field names are computed once; each
requested column must match one of them case-insensitively, the matching
field is renamed to the caller's casing and marked inImport, and the first
miss aborts with an error naming the qualified table and the column. -/
def applyColumns (fullTable : String) (lowerNames : List String) :
    List String → List Field → Except String (List Field)
  | [], fields => .ok fields
  | c :: cs, fields =>
    match idxOfStr lowerNames (strToLower c) with
    | none => .error (fullTable ++ " does not contain column " ++ c)
    | some dex =>
      applyColumns fullTable lowerNames cs
        (updateAt fields dex fun f => { f with name := c, inImport := true })

/-- First requested column with no case-insensitive match among the
lower-cased original field names. -/
def firstMissing (lowerNames : List String) : List String → Option String
  | [] => none
  | c :: cs =>
    if (idxOfStr lowerNames (strToLower c)).isSome then firstMissing lowerNames cs
    else some c

/-- Oracle supplying the outcomes of the external steps of
prepareBulkInsert: directory creation and format generation. -/
structure PrepOracle where
  dirs : Except String Unit
  fmtGen : Except String FormatData

/-- Merged options of prepareBulkInsert (src/lib/Bcp.js lines 651-657):
defaults are the freshly generated format and import file paths. -/
def prepMergedOpts (userOpts : Option JsObj) (base : String) : JsObj :=
  mergeOptions
    [("formatFile", .str (base ++ "_format.xml")), ("importFile", .str (base ++ "_import.dat"))]
    userOpts

/-- Format-file path used by prepareBulkInsert after option merging. -/
def prepFormatPath (userOpts : Option JsObj) (base : String) : String :=
  jsToStr ((getProp (prepMergedOpts userOpts base) "formatFile").getD .undef)

/-- Import-file path used by prepareBulkInsert after option merging. -/
def prepImportPath (userOpts : Option JsObj) (base : String) : String :=
  jsToStr ((getProp (prepMergedOpts userOpts base) "importFile").getD .undef)

/-- Bcp.prototype.prepareBulkInsert (src/lib/Bcp.js lines 643-710) as a pure
function from the oracle of external outcomes to the trace of effects and the
final callback value: ensure directories, generate the format descriptor by
running the external tool (which writes the format file), validate and rename
the requested columns, then construct the import-file handle. -/
def prepareBulkInsertRun (b : BcpCfg) (table : String) (columns : List String)
    (userOpts : Option JsObj) (base : String) (orc : PrepOracle) :
    List Effect × Except String (List Field × String) :=
  let formatFile := prepFormatPath userOpts base
  let importFile := prepImportPath userOpts base
  let fullTable := getQualifiedTable b table
  let t1 : List Effect := [.ensureDirs formatFile importFile]
  match orc.dirs with
  | .error e => (t1, .error e)
  | .ok _ =>
    let t2 := t1 ++ [.formatGen fullTable formatFile]
    match orc.fmtGen with
    | .error e => (t2, .error e)
    | .ok format =>
      match applyColumns fullTable (format.fields.map fun f => strToLower f.name)
          columns format.fields with
      | .error msg => (t2, .error msg)
      | .ok fields2 => (t2 ++ [.createImport importFile], .ok (fields2, importFile))

/-! Token-shape lemmas for the command argument builder. -/

theorem ofNat_digit_isDigit (m : Nat) (h : m < 10) : (Char.ofNat (48 + m)).isDigit = true := by
  interval_cases m <;> decide

theorem decChars_mem :
    ∀ fuel n acc c, c ∈ decChars fuel n acc → c.isDigit = true ∨ c ∈ acc := by
  intro fuel
  induction fuel with
  | zero => intro n acc c hc; simp [decChars] at hc; exact Or.inr hc
  | succ fuel ih =>
    intro n acc c hc
    simp only [decChars] at hc
    by_cases h : n < 10
    · rw [if_pos h] at hc
      rcases List.mem_cons.mp hc with h1 | h1
      · exact Or.inl (h1 ▸ ofNat_digit_isDigit _ (Nat.mod_lt _ (by norm_num)))
      · exact Or.inr h1
    · rw [if_neg h] at hc
      rcases ih (n / 10) _ c hc with h1 | h1
      · exact Or.inl h1
      · rcases List.mem_cons.mp h1 with h2 | h2
        · exact Or.inl (h2 ▸ ofNat_digit_isDigit _ (Nat.mod_lt _ (by norm_num)))
        · exact Or.inr h2

theorem natToDec_isDigit (n : Nat) : ∀ c ∈ (natToDec n).data, c.isDigit = true := by
  intro c hc
  rcases decChars_mem (n + 1) n [] c hc with h | h
  · exact h
  · simp at h

theorem natToDec_ne (n : Nat) (s : String) (hc : ∃ c ∈ s.data, c.isDigit = false) :
    natToDec n ≠ s := by
  intro h
  obtain ⟨c, hmem, hdig⟩ := hc
  rw [← h] at hmem
  rw [natToDec_isDigit n c hmem] at hdig
  simp at hdig

theorem jsonStringify_data (s : String) :
    (jsonStringify s).data = '"' :: ((s.data.map jsonEscapeChar).flatten ++ ['"']) := rfl

theorem jsonStringify_ne (s t : String) (h : t.data.head? ≠ some '"') : jsonStringify s ≠ t := by
  intro he
  apply h
  rw [← he, jsonStringify_data]
  rfl

theorem str_ne_of_length (a b : String) (h : a.length ≠ b.length) : a ≠ b := fun he => h (he ▸ rfl)

theorem strLen_pos (t : String) (h : t ≠ "") : 0 < t.length := by
  cases t with
  | mk l =>
    cases l with
    | nil => exact absurd rfl h
    | cons c cs => simp [String.length]

theorem flagTerm_ne (flag t s : String) (hs : s.length < flag.length + t.length) :
    flag ++ t ≠ s := by
  apply str_ne_of_length
  rw [String.length_append]
  omega

/-- Flags that can occur before the authentication clause. -/
def mainFlagTokens : List String :=
  ["-a", "-b", "-w", "-c", "-C", "-e", "-E", "-F", "-i", "-K", "ReadOnly", "-k", "-L", "-m",
    "-R", "-r", "-S", "-t"]

/-- Shape of any token emitted before the authentication clause: a known
flag, a decimal number, a JSON-escaped string, or a terminator concatenated
onto its flag. -/
def TokShape (x : String) : Prop :=
  x ∈ mainFlagTokens ∨ (∃ n, x = natToDec n) ∨ (∃ s, x = jsonStringify s)
    ∨ (∃ t, t ≠ "" ∧ (x = "-r" ++ t ∨ x = "-t" ++ t))

theorem mem_numSeg {x flag : String} {v : Option Nat} (h : x ∈ numSeg flag v) :
    x = flag ∨ ∃ n, x = natToDec n := by
  cases v with
  | none => simp [numSeg] at h
  | some n =>
    by_cases hn : n = 0 <;> simp [numSeg, hn] at h
    rcases h with h | h
    · exact Or.inl h
    · exact Or.inr ⟨n, h⟩

theorem mem_strSeg {x flag : String} {v : Option String} (h : x ∈ strSeg flag v) :
    x = flag ∨ ∃ s, x = jsonStringify s := by
  cases v with
  | none => simp [strSeg] at h
  | some s =>
    by_cases hs : s = "" <;> simp [strSeg, hs] at h
    rcases h with h | h
    · exact Or.inl h
    · exact Or.inr ⟨s, h⟩

theorem mem_boolSeg {x flag : String} {b : Bool} (h : x ∈ boolSeg flag b) : x = flag := by
  cases b <;> simp [boolSeg] at h
  exact h

theorem mem_termSeg {x flag : String} {v : Option String} (h : x ∈ termSeg flag v) :
    x = flag ∨ (∃ s, x = jsonStringify s) ∨ ∃ t, t ≠ "" ∧ x = flag ++ t := by
  cases v with
  | none => simp [termSeg] at h
  | some t =>
    by_cases ht : t = ""
    · simp [termSeg, ht] at h
    · by_cases hh : t.data.head? = some '-' ∨ t.data.head? = some '/' <;>
        simp [termSeg, ht, hh] at h
      · exact Or.inr (Or.inr ⟨t, ht, h⟩)
      · rcases h with h | h
        · exact Or.inl h
        · exact Or.inr (Or.inl ⟨t, h⟩)

theorem mem_ite_lists {x : String} {c : Prop} [Decidable c] {l1 l2 : List String}
    (h : x ∈ (if c then l1 else l2)) : x ∈ l1 ∨ x ∈ l2 := by
  split at h
  · exact Or.inl h
  · exact Or.inr h

theorem mem_argsHead {b : BcpCfg} {om : Bool} {x : String} (h : x ∈ argsHead b om) :
    TokShape x := by
  simp only [argsHead, List.mem_append] at h
  rcases h with
    ((((((((((((h | h) | h) | h) | h) | h) | h) | h) | h) | h) | h) | h) | h)
  · rcases mem_numSeg h with h1 | h1
    · exact Or.inl (by rw [h1]; decide)
    · exact Or.inr (Or.inl h1)
  · rcases mem_numSeg h with h1 | h1
    · exact Or.inl (by rw [h1]; decide)
    · exact Or.inr (Or.inl h1)
  · rcases mem_ite_lists h with h1 | h1
    · simp at h1
    · rcases mem_ite_lists h1 with h2 | h2 <;> simp at h2 <;>
        exact Or.inl (by rw [h2]; decide)
  · rcases mem_ite_lists h with h1 | h1
    · simp at h1
    · rcases mem_strSeg h1 with h2 | h2
      · exact Or.inl (by rw [h2]; decide)
      · exact Or.inr (Or.inr (Or.inl h2))
  · rcases mem_strSeg h with h1 | h1
    · exact Or.inl (by rw [h1]; decide)
    · exact Or.inr (Or.inr (Or.inl h1))
  · exact Or.inl (by rw [mem_boolSeg h]; decide)
  · rcases mem_numSeg h with h1 | h1
    · exact Or.inl (by rw [h1]; decide)
    · exact Or.inr (Or.inl h1)
  · rcases mem_strSeg h with h1 | h1
    · exact Or.inl (by rw [h1]; decide)
    · exact Or.inr (Or.inr (Or.inl h1))
  · rcases mem_ite_lists h with h1 | h1
    · simp at h1
      rcases h1 with h2 | h2 <;> exact Or.inl (by rw [h2]; decide)
    · simp at h1
  · exact Or.inl (by rw [mem_boolSeg h]; decide)
  · rcases mem_numSeg h with h1 | h1
    · exact Or.inl (by rw [h1]; decide)
    · exact Or.inr (Or.inl h1)
  · rcases mem_numSeg h with h1 | h1
    · exact Or.inl (by rw [h1]; decide)
    · exact Or.inr (Or.inl h1)
  · exact Or.inl (by rw [mem_boolSeg h]; decide)

theorem mem_argsMain {b : BcpCfg} {om : Bool} {x : String} (h : x ∈ argsMain b om) :
    TokShape x := by
  simp only [argsMain, List.mem_append] at h
  rcases h with ((h | h) | h) | h
  · exact mem_argsHead h
  · rcases mem_termSeg h with h1 | h1 | h1
    · exact Or.inl (by rw [h1]; decide)
    · exact Or.inr (Or.inr (Or.inl h1))
    · obtain ⟨t, ht, hx⟩ := h1
      exact Or.inr (Or.inr (Or.inr ⟨t, ht, Or.inl hx⟩))
  · rcases mem_strSeg h with h1 | h1
    · exact Or.inl (by rw [h1]; decide)
    · exact Or.inr (Or.inr (Or.inl h1))
  · rcases mem_termSeg h with h1 | h1 | h1
    · exact Or.inl (by rw [h1]; decide)
    · exact Or.inr (Or.inr (Or.inl h1))
    · obtain ⟨t, ht, hx⟩ := h1
      exact Or.inr (Or.inr (Or.inr ⟨t, ht, Or.inr hx⟩))

theorem mem_authSeg {b : BcpCfg} {x : String} (h : x ∈ authSeg b) :
    x ∈ ["-T", "-U", "-P"] ∨ ∃ s, x = jsonStringify s := by
  by_cases ht : b.trusted <;> simp only [authSeg, ht, if_true, if_false] at h
  · simp at h
    exact Or.inl (by rw [h]; decide)
  · rcases List.mem_append.mp h with h1 | h1 <;> rcases mem_strSeg h1 with h2 | h2
    · exact Or.inl (by rw [h2]; decide)
    · exact Or.inr h2
    · exact Or.inl (by rw [h2]; decide)
    · exact Or.inr h2

theorem mem_hintSeg {b : BcpCfg} {x : String} (h : x ∈ hintSeg b) :
    x = "-h" ∨ ∃ s, x = jsonStringify s := by
  by_cases he : hintList b = [] <;> simp [hintSeg, he] at h
  rcases h with h | h
  · exact Or.inl h
  · exact Or.inr ⟨_, h⟩

theorem tokShape_ne_flag {x y : String} (hx : TokShape x) (hmem : y ∉ mainFlagTokens)
    (hdig : ∃ c ∈ y.data, c.isDigit = false) (hq : y.data.head? ≠ some '"')
    (hlen : y.length < 3) : x ≠ y := by
  rcases hx with h | ⟨n, h⟩ | ⟨s, h⟩ | ⟨t, ht, h | h⟩
  · intro he; exact hmem (he ▸ h)
  · exact h ▸ natToDec_ne n y hdig
  · exact h ▸ jsonStringify_ne s y hq
  · refine h ▸ flagTerm_ne _ _ _ ?_
    have := strLen_pos t ht
    have h2 : ("-r" : String).length = 2 := by decide
    omega
  · refine h ▸ flagTerm_ne _ _ _ ?_
    have := strLen_pos t ht
    have h2 : ("-t" : String).length = 2 := by decide
    omega

theorem tokShape_ne_h {x : String} (hx : TokShape x) : x ≠ "-h" :=
  tokShape_ne_flag hx (by decide) ⟨'-', by decide, by decide⟩ (by decide) (by decide)

theorem tokShape_ne_U {x : String} (hx : TokShape x) : x ≠ "-U" :=
  tokShape_ne_flag hx (by decide) ⟨'-', by decide, by decide⟩ (by decide) (by decide)

theorem tokShape_ne_P {x : String} (hx : TokShape x) : x ≠ "-P" :=
  tokShape_ne_flag hx (by decide) ⟨'-', by decide, by decide⟩ (by decide) (by decide)

theorem not_mem_preHint {b : BcpCfg} {om : Bool} {y : String}
    (hy : ∀ x, TokShape x → x ≠ y) (hT : y ≠ "-T") (hU : y ≠ "-U") (hP : y ≠ "-P")
    (hJ : ∀ s, jsonStringify s ≠ y) : y ∉ argsMain b om ++ authSeg b := by
  intro hmem
  rcases List.mem_append.mp hmem with h | h
  · exact hy y (mem_argsMain h) rfl
  · rcases mem_authSeg h with h1 | h1
    · simp at h1
      rcases h1 with h2 | h2 | h2
      · exact hT h2
      · exact hU h2
      · exact hP h2
    · obtain ⟨s, hs⟩ := h1
      exact hJ s hs.symm

/-- Claim C2: with the format-including argument mode (the mode used for
format generation and export), a set, non-empty row terminator beginning with
a hyphen or slash is emitted as the single token -r concatenated with the raw
value; any other set, non-empty row terminator is emitted as the -r flag
followed immediately by the separate JSON-escaped value token; and likewise
for the field terminator with -t. -/
theorem claim_C2 (b : BcpCfg) :
    (∀ t, b.rowTerminator = some t → t ≠ "" →
      ((t.data.head? = some '-' ∨ t.data.head? = some '/') →
        ∃ pre post, getCommonArgs b false = pre ++ ("-r" ++ t) :: post)
      ∧ (¬(t.data.head? = some '-' ∨ t.data.head? = some '/') →
        ∃ pre post, getCommonArgs b false = pre ++ "-r" :: jsonStringify t :: post))
    ∧ (∀ t, b.fieldTerminator = some t → t ≠ "" →
      ((t.data.head? = some '-' ∨ t.data.head? = some '/') →
        ∃ pre post, getCommonArgs b false = pre ++ ("-t" ++ t) :: post)
      ∧ (¬(t.data.head? = some '-' ∨ t.data.head? = some '/') →
        ∃ pre post, getCommonArgs b false = pre ++ "-t" :: jsonStringify t :: post)) := by
  constructor
  · intro t hset hne
    constructor
    · intro hh
      refine ⟨argsHead b false,
        strSeg "-S" b.server ++ termSeg "-t" b.fieldTerminator ++ authSeg b ++ hintSeg b, ?_⟩
      simp [getCommonArgs, argsMain, hset, termSeg, hne, hh]
    · intro hh
      refine ⟨argsHead b false,
        strSeg "-S" b.server ++ termSeg "-t" b.fieldTerminator ++ authSeg b ++ hintSeg b, ?_⟩
      simp [getCommonArgs, argsMain, hset, termSeg, hne, hh]
  · intro t hset hne
    constructor
    · intro hh
      refine ⟨argsHead b false ++ termSeg "-r" b.rowTerminator ++ strSeg "-S" b.server,
        authSeg b ++ hintSeg b, ?_⟩
      simp [getCommonArgs, argsMain, hset, termSeg, hne, hh]
    · intro hh
      refine ⟨argsHead b false ++ termSeg "-r" b.rowTerminator ++ strSeg "-S" b.server,
        authSeg b ++ hintSeg b, ?_⟩
      simp [getCommonArgs, argsMain, hset, termSeg, hne, hh]

/-- Witness for claim C2 at a concrete configuration: a row terminator that
starts with a hyphen is concatenated onto -r, and a comma field terminator is
emitted as two consecutive tokens. -/
theorem claim_C2_witness :
    (∃ pre post,
      getCommonArgs { rowTerminator := some "-x", fieldTerminator := some "," } false =
        pre ++ ("-r" ++ "-x") :: post)
    ∧ ∃ pre post,
      getCommonArgs { rowTerminator := some "-x", fieldTerminator := some "," } false =
        pre ++ "-t" :: jsonStringify "," :: post :=
  ⟨(claim_C2 _).1 "-x" rfl (by decide) |>.1 (by decide),
    (claim_C2 _).2 "," rfl (by decide) |>.2 (by decide)⟩

/-- Claim C3: the hint sub-list hintList is assembled in the fixed source
order with only the truthy hints; when it is empty no -h token occurs
anywhere in the built argument list, and when it is non-empty the list ends
with the -h flag followed by exactly the single comma-joined JSON-escaped
hint token, with no other -h token anywhere before it. -/
theorem claim_C3 (b : BcpCfg) (om : Bool) :
    (hintList b = [] → "-h" ∉ getCommonArgs b om)
    ∧ (hintList b ≠ [] →
      ∃ pre, getCommonArgs b om =
          pre ++ ["-h", jsonStringify (String.intercalate "," (hintList b))]
        ∧ "-h" ∉ pre) := by
  have hpre : "-h" ∉ argsMain b om ++ authSeg b :=
    not_mem_preHint (fun x hx => tokShape_ne_h hx) (by decide) (by decide) (by decide)
      (fun s => jsonStringify_ne s "-h" (by decide))
  constructor
  · intro he hmem
    rw [getCommonArgs, hintSeg, if_pos he, List.append_nil] at hmem
    exact hpre hmem
  · intro he
    refine ⟨argsMain b om ++ authSeg b, ?_, hpre⟩
    rw [getCommonArgs, hintSeg, if_neg he, List.append_assoc]

/-- Witness for claim C3: with only TABLOCK and ROWS_PER_BATCH set the
argument list ends with -h and the joined hint token; with no hints set no -h
token is emitted. -/
theorem claim_C3_witness :
    (∃ pre,
      getCommonArgs { rowsPerBatch := some 5, tabLock := true } false =
        pre ++ ["-h", jsonStringify (String.intercalate ","
          (hintList { rowsPerBatch := some 5, tabLock := true }))]
        ∧ "-h" ∉ pre)
    ∧ "-h" ∉ getCommonArgs {} false :=
  ⟨(claim_C3 { rowsPerBatch := some 5, tabLock := true } false).2 (by decide),
    (claim_C3 {} false).1 (by decide)⟩

/-- Claim C4: a trusted configuration always emits the -T token and never
emits a -U or -P token, even when user and password are both set. -/
theorem claim_C4 (b : BcpCfg) (om : Bool) (h : b.trusted = true) :
    "-T" ∈ getCommonArgs b om
    ∧ "-U" ∉ getCommonArgs b om ∧ "-P" ∉ getCommonArgs b om := by
  refine ⟨?_, ?_, ?_⟩
  · rw [getCommonArgs]
    refine List.mem_append.mpr (Or.inl (List.mem_append.mpr (Or.inr ?_)))
    rw [authSeg, h]
    simp
  · intro hmem
    rw [getCommonArgs, List.append_assoc] at hmem
    rcases List.mem_append.mp hmem with h1 | h1
    · exact tokShape_ne_U (mem_argsMain h1) rfl
    · rcases List.mem_append.mp h1 with h2 | h2
      · rw [authSeg, h] at h2
        simp at h2
      · rcases mem_hintSeg h2 with h3 | h3
        · simp at h3
        · obtain ⟨s, hs⟩ := h3
          exact jsonStringify_ne s "-U" (by decide) hs.symm
  · intro hmem
    rw [getCommonArgs, List.append_assoc] at hmem
    rcases List.mem_append.mp hmem with h1 | h1
    · exact tokShape_ne_P (mem_argsMain h1) rfl
    · rcases List.mem_append.mp h1 with h2 | h2
      · rw [authSeg, h] at h2
        simp at h2
      · rcases mem_hintSeg h2 with h3 | h3
        · simp at h3
        · obtain ⟨s, hs⟩ := h3
          exact jsonStringify_ne s "-P" (by decide) hs.symm

/-- Witness for claim C4: a trusted configuration with both user and
password set emits -T and neither -U nor -P. -/
theorem claim_C4_witness :
    "-T" ∈ getCommonArgs { trusted := true, user := some "u", password := some "p" } false
    ∧ "-U" ∉ getCommonArgs { trusted := true, user := some "u", password := some "p" } false
    ∧ "-P" ∉ getCommonArgs { trusted := true, user := some "u", password := some "p" } false :=
  claim_C4 { trusted := true, user := some "u", password := some "p" } false rfl

/-! Lemmas about the terminator scan and the row reader. -/

theorem isPfxOf_nil (pat : List Char) (h : isPfxOf pat [] = true) : pat = [] := by
  cases pat with
  | nil => rfl
  | cons c cs => simp [isPfxOf] at h

theorem pfx_len : ∀ pat xs : List Char, isPfxOf pat xs = true → pat.length ≤ xs.length := by
  intro pat
  induction pat with
  | nil => intro xs _; simp
  | cons a as ih =>
    intro xs h
    cases xs with
    | nil => simp [isPfxOf] at h
    | cons b bs =>
      simp only [isPfxOf, Bool.and_eq_true] at h
      simpa using Nat.succ_le_succ (ih bs h.2)

theorem pfx_append : ∀ pat xs ys : List Char, isPfxOf pat xs = true →
    isPfxOf pat (xs ++ ys) = true := by
  intro pat
  induction pat with
  | nil => intro xs ys _; simp [isPfxOf]
  | cons a as ih =>
    intro xs ys h
    cases xs with
    | nil => simp [isPfxOf] at h
    | cons b bs =>
      simp only [isPfxOf, Bool.and_eq_true] at h
      simpa [isPfxOf, h.1] using ih bs ys h.2

theorem pfx_of_append_le : ∀ pat xs ys : List Char, isPfxOf pat (xs ++ ys) = true →
    pat.length ≤ xs.length → isPfxOf pat xs = true := by
  intro pat
  induction pat with
  | nil => intro xs ys _ _; simp [isPfxOf]
  | cons a as ih =>
    intro xs ys h hlen
    cases xs with
    | nil => simp at hlen
    | cons b bs =>
      simp only [List.cons_append, isPfxOf, Bool.and_eq_true] at h
      simp only [isPfxOf, Bool.and_eq_true]
      exact ⟨h.1, ih bs ys h.2 (by simpa using Nat.le_of_succ_le_succ hlen)⟩

theorem findFromGo_nilPat : ∀ (l : List Char) (p : Nat), findFromGo [] l p = some p := by
  intro l p
  cases l <;> simp [findFromGo, isPfxOf]

theorem findFromGo_ge {pat : List Char} :
    ∀ (A : List Char) (p q : Nat), findFromGo pat A p = some q → p ≤ q := by
  intro A
  induction A with
  | nil =>
    intro p q h
    simp only [findFromGo] at h
    split at h
    · simp at h; omega
    · simp at h
  | cons c rest ih =>
    intro p q h
    simp only [findFromGo] at h
    split at h
    · simp at h; omega
    · exact Nat.le_of_succ_le (ih (p + 1) q h)

theorem findFromGo_bound {pat : List Char} :
    ∀ (A : List Char) (p q : Nat), findFromGo pat A p = some q →
      q + pat.length ≤ p + A.length := by
  intro A
  induction A with
  | nil =>
    intro p q h
    simp only [findFromGo] at h
    split at h
    · rename_i hp
      simp at h
      rw [isPfxOf_nil pat hp]
      simp
      omega
    · simp at h
  | cons c rest ih =>
    intro p q h
    simp only [findFromGo] at h
    split at h
    · rename_i hp
      simp at h
      have := pfx_len pat (c :: rest) hp
      simp at this ⊢
      omega
    · have := ih (p + 1) q h
      simp at this ⊢
      omega

theorem findFromGo_shift {pat : List Char} :
    ∀ (A : List Char) (k p : Nat),
      findFromGo pat A (k + p) = (findFromGo pat A p).map (k + ·) := by
  intro A
  induction A with
  | nil =>
    intro k p
    simp only [findFromGo]
    split <;> simp
  | cons c rest ih =>
    intro k p
    simp only [findFromGo]
    split
    · simp
    · rw [show k + p + 1 = k + (p + 1) by omega]
      exact ih k (p + 1)

theorem findFromGo_extend {pat : List Char} :
    ∀ (A ext : List Char) (p q : Nat), findFromGo pat A p = some q →
      q + pat.length ≤ p + A.length → findFromGo pat (A ++ ext) p = some q := by
  intro A
  induction A with
  | nil =>
    intro ext p q h hb
    simp only [findFromGo] at h
    split at h
    · rename_i hp
      simp at h
      subst h
      rw [isPfxOf_nil pat hp]
      simp [findFromGo_nilPat]
    · simp at h
  | cons c rest ih =>
    intro ext p q h hb
    simp only [findFromGo] at h
    simp only [List.cons_append, findFromGo]
    split at h
    · rename_i hp
      simp at h
      have hx : isPfxOf pat (c :: (rest ++ ext)) = true := by
        have := pfx_append pat (c :: rest) ext hp
        simpa using this
      simp [hx, h]
    · rename_i hp
      have hge := findFromGo_ge rest (p + 1) q h
      have hx : isPfxOf pat (c :: (rest ++ ext)) = false := by
        by_cases hy : isPfxOf pat (c :: (rest ++ ext)) = true
        · exact absurd (pfx_of_append_le pat (c :: rest) ext (by simpa using hy)
            (by simp at hb ⊢; omega)) (by simp [hp])
        · simpa using hy
      simp [hx]
      exact ih ext (p + 1) q h (by simp at hb ⊢; omega)

theorem findFrom_zero (A pat : List Char) : findFrom A pat 0 = findFromGo pat A 0 := by
  simp [findFrom]

theorem findFrom_shift (pre rest pat : List Char) (i : Nat) :
    findFrom (pre ++ rest) pat (pre.length + i) =
      (findFrom rest pat i).map (pre.length + ·) := by
  unfold findFrom
  rw [List.drop_append i, List.length_append]
  rw [show min (pre.length + i) (pre.length + rest.length) = pre.length + min i rest.length
    by omega]
  exact findFromGo_shift (rest.drop i) pre.length (min i rest.length)

theorem findFrom_extend (A ext pat : List Char) (q : Nat) (h : findFrom A pat 0 = some q)
    (hb : q + pat.length ≤ A.length) : findFrom (A ++ ext) pat 0 = some q := by
  rw [findFrom_zero] at h ⊢
  exact findFromGo_extend A ext 0 q h (by omega)

theorem findFrom_bound (data pat : List Char) (i q : Nat) (hi : i ≤ data.length)
    (h : findFrom data pat i = some q) : i ≤ q ∧ q + pat.length ≤ data.length := by
  unfold findFrom at h
  rw [Nat.min_eq_left hi] at h
  have h1 := findFromGo_ge (data.drop i) i q h
  have h2 := findFromGo_bound (data.drop i) i q h
  rw [List.length_drop] at h2
  omega

theorem findFrom_nilPat (data : List Char) (i : Nat) (hi : i ≤ data.length) :
    findFrom data [] i = some i := by
  unfold findFrom
  rw [Nat.min_eq_left hi, findFromGo_nilPat]

theorem readFields_cons_none (data : List Char) (f : Field) (fs : List Field) (i : Nat)
    (acc : List (String × Value)) (h : findFrom data f.terminator.data i = none) :
    readFields data (f :: fs) i acc = none := by
  simp [readFields, h]

theorem readFields_cons_some (data : List Char) (f : Field) (fs : List Field) (i : Nat)
    (acc : List (String × Value)) (dex : Nat)
    (h : findFrom data f.terminator.data i = some dex) :
    readFields data (f :: fs) i acc =
      readFields data fs (dex + f.terminator.data.length)
        ((f.name, fieldDeserialize ⟨(data.drop i).take (dex - i)⟩ f) :: acc) := by
  simp [readFields, h]

theorem readLoop_step_some (data : List Char) (fields : List Field) (fuel i : Nat)
    (acc : List Row) (row : Row) (j : Nat) (hi : i < data.length)
    (h : readFields data fields i [] = some (row, j)) :
    readLoop data fields (fuel + 1) i acc = readLoop data fields fuel j (row :: acc) := by
  simp [readLoop, hi, h]

theorem readLoop_step_none (data : List Char) (fields : List Field) (fuel i : Nat)
    (acc : List Row) (hi : i < data.length) (h : readFields data fields i [] = none) :
    readLoop data fields (fuel + 1) i acc = some acc.reverse := by
  simp [readLoop, hi, h]

theorem readLoop_step_done (data : List Char) (fields : List Field) (fuel i : Nat)
    (acc : List Row) (hi : ¬i < data.length) :
    readLoop data fields (fuel + 1) i acc = some acc.reverse := by
  simp [readLoop, hi]

theorem readFields_shift (pre rest : List Char) :
    ∀ (fields : List Field) (i : Nat) (acc : List (String × Value)),
      readFields (pre ++ rest) fields (pre.length + i) acc =
        (readFields rest fields i acc).map fun rj => (rj.1, pre.length + rj.2) := by
  intro fields
  induction fields with
  | nil => intro i acc; simp [readFields]
  | cons f fs ih =>
    intro i acc
    cases hf : findFrom rest f.terminator.data i with
    | none =>
      have hf2 : findFrom (pre ++ rest) f.terminator.data (pre.length + i) = none := by
        rw [findFrom_shift, hf]
        rfl
      rw [readFields_cons_none _ _ _ _ _ hf2, readFields_cons_none _ _ _ _ _ hf]
      rfl
    | some p =>
      have hf2 : findFrom (pre ++ rest) f.terminator.data (pre.length + i) =
          some (pre.length + p) := by
        rw [findFrom_shift, hf]
        rfl
      rw [readFields_cons_some _ _ _ _ _ _ hf2, readFields_cons_some _ _ _ _ _ _ hf]
      rw [List.drop_append i, show pre.length + p - (pre.length + i) = p - i by omega,
        show pre.length + p + f.terminator.data.length =
          pre.length + (p + f.terminator.data.length) by omega]
      exact ih _ _

theorem readFields_encode :
    ∀ (fields : List Field) (vals : List String) (ext : List Char)
      (acc : List (String × Value)), rowOk fields vals = true →
      readFields (encodeRow fields vals ++ ext) fields 0 acc =
        some (acc.reverse ++ decodeRow fields vals, (encodeRow fields vals).length) := by
  intro fields
  induction fields with
  | nil =>
    intro vals ext acc hok
    cases vals with
    | nil => simp [readFields, encodeRow, decodeRow]
    | cons v vs => simp [rowOk] at hok
  | cons f fs ih =>
    intro vals ext acc hok
    cases vals with
    | nil => simp [rowOk] at hok
    | cons v vs =>
      simp only [rowOk, Bool.and_eq_true, beq_iff_eq] at hok
      obtain ⟨hfind, hrest⟩ := hok
      have hbuf : encodeRow (f :: fs) (v :: vs) ++ ext =
          (v.data ++ f.terminator.data) ++ (encodeRow fs vs ++ ext) := by
        simp [encodeRow]
      have hfind2 : findFrom ((v.data ++ f.terminator.data) ++ (encodeRow fs vs ++ ext))
          f.terminator.data 0 = some v.data.length :=
        findFrom_extend _ _ _ _ hfind (by simp)
      rw [hbuf, readFields_cons_some _ _ _ _ _ _ hfind2]
      have hsub : ((((v.data ++ f.terminator.data) ++ (encodeRow fs vs ++ ext)).drop 0).take
          (v.data.length - 0)) = v.data := by
        rw [List.drop_zero, Nat.sub_zero, List.append_assoc]
        exact List.take_left v.data _
      rw [hsub, show (⟨v.data⟩ : String) = v from rfl]
      rw [show v.data.length + f.terminator.data.length =
          (v.data ++ f.terminator.data).length + 0 by simp]
      rw [readFields_shift, ih vs ext _ hrest]
      simp only [Option.map_some']
      simp [decodeRow, encodeRow]
      omega
theorem readFields_bound (data : List Char) :
    ∀ (fields : List Field) (i : Nat) (acc : List (String × Value)) r j,
      i ≤ data.length → readFields data fields i acc = some (r, j) →
      i ≤ j ∧ j ≤ data.length := by
  intro fields
  induction fields with
  | nil =>
    intro i acc r j hi h
    simp [readFields] at h
    omega
  | cons f fs ih =>
    intro i acc r j hi h
    cases hf : findFrom data f.terminator.data i with
    | none => rw [readFields_cons_none _ _ _ _ _ hf] at h; simp at h
    | some dex =>
      rw [readFields_cons_some _ _ _ _ _ _ hf] at h
      have hb := findFrom_bound data f.terminator.data i dex hi hf
      have := ih (dex + f.terminator.data.length) _ r j (by omega) h
      omega

theorem readFields_progress (data : List Char) (f : Field) (fs : List Field) (i : Nat)
    (acc : List (String × Value)) (r : List (String × Value)) (j : Nat)
    (hi : i ≤ data.length) (ht : f.terminator.data ≠ [])
    (h : readFields data (f :: fs) i acc = some (r, j)) : i < j ∧ j ≤ data.length := by
  cases hf : findFrom data f.terminator.data i with
  | none => rw [readFields_cons_none _ _ _ _ _ hf] at h; simp at h
  | some dex =>
    rw [readFields_cons_some _ _ _ _ _ _ hf] at h
    have hb := findFrom_bound data f.terminator.data i dex hi hf
    have hlen : 0 < f.terminator.data.length := List.length_pos.mpr ht
    have := readFields_bound data fs (dex + f.terminator.data.length) _ r j (by omega) h
    omega

/-- Raw content of a terminated row is at least one character when the field
list is non-empty and terminators are non-empty. -/
theorem encodeRow_pos (f : Field) (fs : List Field) (vals : List String)
    (ht : f.terminator.data ≠ []) (hok : rowOk (f :: fs) vals = true) :
    0 < (encodeRow (f :: fs) vals).length := by
  cases vals with
  | nil => simp [rowOk] at hok
  | cons v vs =>
    have hlen : 0 < f.terminator.data.length := List.length_pos.mpr ht
    simp only [encodeRow, List.length_append]
    omega

theorem readLoop_encode (fields : List Field) (tail : List Char)
    (hne : fields ≠ []) (hterm : ∀ f ∈ fields, f.terminator.data ≠ [])
    (htail : readFields tail fields 0 [] = none) :
    ∀ (rows : List (List String)) (pre : List Char) (acc : List Row) (fuel : Nat),
      rows.length < fuel → (∀ vals ∈ rows, rowOk fields vals = true) →
      readLoop (pre ++ (encodeRows fields rows ++ tail)) fields fuel pre.length acc =
        some (acc.reverse ++ rows.map (decodeRow fields)) := by
  intro rows
  induction rows with
  | nil =>
    intro pre acc fuel hfuel _
    cases fuel with
    | zero => omega
    | succ fuel =>
      simp only [encodeRows, List.map_nil, List.flatten_nil, List.nil_append]
      cases tail with
      | nil =>
        rw [readLoop_step_done _ _ _ _ _ (by simp)]
        simp
      | cons c cs =>
        have hguard : pre.length < (pre ++ c :: cs).length := by simp
        have hnone : readFields (pre ++ c :: cs) fields pre.length [] = none := by
          rw [show pre.length = pre.length + 0 by omega, readFields_shift, htail]
          rfl
        rw [readLoop_step_none _ _ _ _ _ hguard hnone]
        simp
  | cons vals rows ih =>
    intro pre acc fuel hfuel hok
    cases fuel with
    | zero => simp at hfuel
    | succ fuel =>
      have hvok : rowOk fields vals = true := hok vals (by simp)
      obtain ⟨f, fs, hffs⟩ : ∃ f fs, fields = f :: fs := by
        cases fields with
        | nil => exact absurd rfl hne
        | cons f fs => exact ⟨f, fs, rfl⟩
      have hpos : 0 < (encodeRow fields vals).length := by
        rw [hffs]
        exact encodeRow_pos f fs vals (hterm f (by rw [hffs]; simp)) (hffs ▸ hvok)
      have hsplit : encodeRows fields (vals :: rows) ++ tail =
          encodeRow fields vals ++ (encodeRows fields rows ++ tail) := by
        simp [encodeRows]
      rw [hsplit]
      have hguard : pre.length <
          (pre ++ (encodeRow fields vals ++ (encodeRows fields rows ++ tail))).length := by
        simp
        omega
      have hstep : readFields (pre ++ (encodeRow fields vals ++ (encodeRows fields rows ++ tail)))
          fields pre.length [] =
          some (decodeRow fields vals, pre.length + (encodeRow fields vals).length) := by
        rw [show pre.length = pre.length + 0 by omega, readFields_shift,
          readFields_encode fields vals (encodeRows fields rows ++ tail) [] hvok]
        rfl
      rw [readLoop_step_some _ _ _ _ _ _ _ hguard hstep]
      have hre : pre ++ (encodeRow fields vals ++ (encodeRows fields rows ++ tail)) =
          (pre ++ encodeRow fields vals) ++ (encodeRows fields rows ++ tail) := by
        simp
      rw [hre, show pre.length + (encodeRow fields vals).length =
        (pre ++ encodeRow fields vals).length by simp]
      rw [ih (pre ++ encodeRow fields vals) (decodeRow fields vals :: acc) fuel
        (by simp at hfuel ⊢; omega) (fun v hv => hok v (by simp [hv]))]
      simp

/-- Each cleanly delimited row contributes at least one character, so the
number of rows is bounded by the buffer length. -/
theorem encodeRows_len (fields : List Field) (hne : fields ≠ [])
    (hterm : ∀ f ∈ fields, f.terminator.data ≠ []) :
    ∀ rows : List (List String), (∀ vals ∈ rows, rowOk fields vals = true) →
      rows.length ≤ (encodeRows fields rows).length := by
  intro rows
  induction rows with
  | nil => simp
  | cons vals rows ih =>
    intro hok
    obtain ⟨f, fs, hffs⟩ : ∃ f fs, fields = f :: fs := by
      cases fields with
      | nil => exact absurd rfl hne
      | cons f fs => exact ⟨f, fs, rfl⟩
    have hpos : 0 < (encodeRow fields vals).length := by
      rw [hffs]
      exact encodeRow_pos f fs vals (hterm f (by rw [hffs]; simp))
        (hffs ▸ hok vals (by simp))
    have := ih fun v hv => hok v (by simp [hv])
    simp only [encodeRows, List.map_cons, List.flatten_cons, List.length_append,
      List.length_cons] at *
    omega

theorem strData_ne_nil (t : String) (h : t ≠ "") : t.data ≠ [] := by
  intro hd
  apply h
  cases t with
  | mk l => cases hd; rfl

/-- Claim C5: decoding a buffer made of cleanly terminated rows followed by a
trailing fragment in which the reader fails to find some field terminator
yields exactly the decoded complete rows; the truncated trailing fragment is
silently dropped rather than reported, and a buffer whose very first row is
truncated yields the empty row list. -/
theorem claim_C5 (fields : List Field) (rows : List (List String)) (tail : List Char)
    (hne : fields ≠ []) (hterm : ∀ f ∈ fields, f.terminator ≠ "")
    (hok : ∀ vals ∈ rows, rowOk fields vals = true)
    (htail : readFields tail fields 0 [] = none) :
    readExportModel (encodeRows fields rows ++ tail) fields =
      some (rows.map (decodeRow fields)) := by
  have hterm2 : ∀ f ∈ fields, f.terminator.data ≠ [] :=
    fun f hf => strData_ne_nil _ (hterm f hf)
  have h := readLoop_encode fields tail hne hterm2 htail rows [] []
    ((encodeRows fields rows ++ tail).length + 1)
    (by have := encodeRows_len fields hne hterm2 rows hok; simp; omega) hok
  simpa [readExportModel] using h

/-- Witness for claim C5: two SQLINT/SQLBIT fields terminated by tab and
newline; the buffer holds one complete row and a truncated second row whose
newline terminator is missing, and decoding yields exactly the first row. -/
theorem claim_C5_witness :
    readExportModel ("42\t1\n7\t0".data)
        [⟨"f0", "SQLINT", "\t", false⟩, ⟨"f1", "SQLBIT", "\n", false⟩] =
      some [[("f0", Value.num "42"), ("f1", Value.bool true)]] := by
  have h := claim_C5 [⟨"f0", "SQLINT", "\t", false⟩, ⟨"f1", "SQLBIT", "\n", false⟩]
    [["42", "1"]] ("7\t0".data) (by decide) (by decide) (by decide) (by decide)
  simpa using h

/-- Claim C8, sufficiency: with a non-empty field list whose terminators are
all non-empty the reader loop finishes within the canonical fuel on every
finite buffer. -/
theorem readLoop_total (data : List Char) (fields : List Field) (hne : fields ≠ [])
    (hterm : ∀ f ∈ fields, f.terminator.data ≠ []) :
    ∀ (fuel i : Nat) (acc : List Row), i ≤ data.length → data.length - i < fuel →
      (readLoop data fields fuel i acc).isSome := by
  intro fuel
  induction fuel with
  | zero => intro i acc _ h; omega
  | succ fuel ih =>
    intro i acc hi hf
    simp only [readLoop]
    by_cases hlt : i < data.length
    · rw [if_pos hlt]
      cases hr : readFields data fields i [] with
      | none => simp
      | some rj =>
        obtain ⟨f, fs, hffs⟩ : ∃ f fs, fields = f :: fs := by
          cases fields with
          | nil => exact absurd rfl hne
          | cons f fs => exact ⟨f, fs, rfl⟩
        have hpr := readFields_progress data f fs i [] rj.1 rj.2 hi
          (hterm f (by rw [hffs]; simp)) (by rw [← hffs]; rw [hr])
        exact ih rj.2 (rj.1 :: acc) (by omega) (by omega)
    · rw [if_neg hlt]
      simp

/-- Claim C8, divergence with an empty field list: on a non-empty buffer the
offset never advances and no amount of fuel finishes the loop. -/
theorem readLoop_nilFields (data : List Char) :
    ∀ (fuel i : Nat) (acc : List Row), i < data.length →
      readLoop data [] fuel i acc = none := by
  intro fuel
  induction fuel with
  | zero => intro i acc _; rfl
  | succ fuel ih =>
    intro i acc hi
    simp only [readLoop, readFields]
    rw [if_pos hi]
    exact ih i _ hi

theorem readFields_emptyTerms (data : List Char) :
    ∀ (fields : List Field) (i : Nat) (acc : List (String × Value)),
      (∀ f ∈ fields, f.terminator = "") → i ≤ data.length →
      ∃ r, readFields data fields i acc = some (r, i) := by
  intro fields
  induction fields with
  | nil => intro i acc _ _; exact ⟨acc.reverse, rfl⟩
  | cons f fs ih =>
    intro i acc hterm hi
    simp only [readFields]
    have ht : f.terminator.data = [] := by
      rw [hterm f (by simp)]
    rw [ht, findFrom_nilPat data i hi]
    simpa [ht] using ih i _ (fun g hg => hterm g (by simp [hg])) hi

/-- Claim C8, divergence with all-empty terminators: on a non-empty buffer
the offset never advances and no amount of fuel finishes the loop. -/
theorem readLoop_emptyTerms (data : List Char) (fields : List Field)
    (hterm : ∀ f ∈ fields, f.terminator = "") :
    ∀ (fuel i : Nat) (acc : List Row), i < data.length →
      readLoop data fields fuel i acc = none := by
  intro fuel
  induction fuel with
  | zero => intro i acc _; rfl
  | succ fuel ih =>
    intro i acc hi
    simp only [readLoop]
    rw [if_pos hi]
    obtain ⟨r, hr⟩ := readFields_emptyTerms data fields i [] hterm (by omega)
    rw [hr]
    exact ih i _ hi

/-- Claim C8: the reader loop terminates on every finite buffer when the
field list is non-empty and every terminator is non-empty, and both sides of
that precondition are needed — with an empty field list, or with every
terminator empty, the offset never advances on a non-empty buffer and the
loop never finishes regardless of fuel. -/
theorem claim_C8 (fields : List Field) (data : List Char) :
    (fields ≠ [] → (∀ f ∈ fields, f.terminator ≠ "") →
      (readExportModel data fields).isSome)
    ∧ (data ≠ [] → ∀ fuel, readLoop data [] fuel 0 [] = none)
    ∧ (fields ≠ [] → (∀ f ∈ fields, f.terminator = "") → data ≠ [] →
      ∀ fuel, readLoop data fields fuel 0 [] = none) := by
  refine ⟨?_, ?_, ?_⟩
  · intro hne hterm
    exact readLoop_total data fields hne (fun f hf => strData_ne_nil _ (hterm f hf))
      (data.length + 1) 0 [] (by omega) (by omega)
  · intro hdata fuel
    exact readLoop_nilFields data fuel 0 [] (by cases data <;> simp_all)
  · intro _ hterm hdata fuel
    exact readLoop_emptyTerms data fields hterm fuel 0 [] (by cases data <;> simp_all)

/-- Witness for claim C8: the terminating side on the concrete two-field
descriptor, and both diverging sides on the one-character buffer x. -/
theorem claim_C8_witness :
    ((readExportModel ("42\t1\n".data)
        [⟨"f0", "SQLINT", "\t", false⟩, ⟨"f1", "SQLBIT", "\n", false⟩]).isSome)
    ∧ (readLoop ("x".data) [] 5 0 [] = none)
    ∧ readLoop ("x".data) [⟨"f0", "SQLINT", "", false⟩] 5 0 [] = none :=
  ⟨(claim_C8 [⟨"f0", "SQLINT", "\t", false⟩, ⟨"f1", "SQLBIT", "\n", false⟩]
      ("42\t1\n".data)).1 (by decide) (by decide),
    (claim_C8 [] ("x".data)).2.1 (by decide) 5,
    (claim_C8 [⟨"f0", "SQLINT", "", false⟩] ("x".data)).2.2 (by decide) (by decide)
      (by decide) 5⟩

/-- Claim C6: the field codec returns null exactly for the empty slice; the
empty string for the single-NUL sentinel slice; a Date coercion of the raw
string for the three datetime tags; a Number coercion for the six numeric
tags; under SQLBIT true exactly for the literal 1; and the raw string
unchanged for every tag outside the types map. -/
theorem claim_C6 (v : String) (f : Field) :
    (v = "" → fieldDeserialize v f = .null)
    ∧ (v = nulStr → fieldDeserialize v f = .str "")
    ∧ (f.type ∈ ["SQLDATETIME", "SQLDATETIM4", "SQLDATETIM8"] → v ≠ "" → v ≠ nulStr →
      fieldDeserialize v f = .date v)
    ∧ (f.type ∈ ["SQLTINYINT", "SQLSMALLINT", "SQLINT", "SQLBIGINT", "SQLFLT4", "SQLFLT8"] →
      v ≠ "" → v ≠ nulStr → fieldDeserialize v f = .num v)
    ∧ (f.type = "SQLBIT" → v ≠ "" → v ≠ nulStr → fieldDeserialize v f = .bool (v == "1"))
    ∧ (typesMap f.type = none → v ≠ "" → v ≠ nulStr → fieldDeserialize v f = .str v) := by
  refine ⟨?_, ?_, ?_, ?_, ?_, ?_⟩
  · intro h
    simp [fieldDeserialize, h]
  · intro h
    subst h
    rw [fieldDeserialize, if_neg (by decide), if_pos rfl]
  · intro hd h1 h2
    simp only [List.mem_cons, List.not_mem_nil, or_false] at hd
    rcases hd with h | h | h <;> simp [fieldDeserialize, typesMap, h, h1, h2]
  · intro hd h1 h2
    simp only [List.mem_cons, List.not_mem_nil, or_false] at hd
    rcases hd with h | h | h | h | h | h <;> simp [fieldDeserialize, typesMap, h, h1, h2]
  · intro hd h1 h2
    simp [fieldDeserialize, typesMap, hd, h1, h2]
  · intro hd h1 h2
    simp [fieldDeserialize, hd, h1, h2]

/-- Witness for claim C6 across the codec's branches: null for empty, empty
string for the NUL sentinel, date, number, boolean for 1 and for 0, and
pass-through for a tag outside the map. -/
theorem claim_C6_witness :
    fieldDeserialize "" ⟨"c", "SQLBIT", "\t", false⟩ = .null
    ∧ fieldDeserialize nulStr ⟨"c", "SQLVARCHAR", "\t", false⟩ = .str ""
    ∧ fieldDeserialize "2020-01-02" ⟨"c", "SQLDATETIME", "\t", false⟩ = .date "2020-01-02"
    ∧ fieldDeserialize "42" ⟨"c", "SQLINT", "\t", false⟩ = .num "42"
    ∧ fieldDeserialize "1" ⟨"c", "SQLBIT", "\t", false⟩ = .bool true
    ∧ fieldDeserialize "0" ⟨"c", "SQLBIT", "\t", false⟩ = .bool false
    ∧ fieldDeserialize "abc" ⟨"c", "SQLVARCHAR", "\t", false⟩ = .str "abc" :=
  ⟨(claim_C6 "" _).1 rfl,
    (claim_C6 nulStr _).2.1 rfl,
    (claim_C6 "2020-01-02" _).2.2.1 (by decide) (by decide) (by decide),
    (claim_C6 "42" _).2.2.2.1 (by decide) (by decide) (by decide),
    (claim_C6 "1" _).2.2.2.2.1 rfl (by decide) (by decide),
    (claim_C6 "0" _).2.2.2.2.1 rfl (by decide) (by decide),
    (claim_C6 "abc" _).2.2.2.2.2 rfl (by decide) (by decide)⟩

/-! Lemmas about option merging in bulkExport and the operation pipelines. -/

theorem exportMerged_no_file (userOpts : Option JsObj) (k : String)
    (hk1 : "read" ≠ k) (hk2 : "keepFiles" ≠ k) :
    getProp (exportMergedOpts userOpts) k = none := by
  unfold exportMergedOpts
  cases userOpts with
  | none => split <;> simp [mergeOptions, getProp, setProp, hk1, hk2]
  | some o =>
    cases hr : getProp o "read" <;> cases hkk : getProp o "keepFiles" <;> split <;>
      simp [mergeOptions, getProp, setProp, hk1, hk2, hr, hkk]

/-- Claim C10: the export operation always uses a freshly generated temp base
under the configured temp directory for both files; a formatFile or
exportFile key passed by the caller is dropped by option merging, so the
chosen paths are always the temp base plus the fixed suffixes, the first
effect of every run creates the directories of exactly those paths, and the
temp base is epoch-millis, random and pid joined under the temp directory. -/
theorem claim_C10 (b : BcpCfg) (table : String) (userOpts : Option JsObj)
    (orc : ExportOracle) (tmp : String) (millis rand pid : Nat) :
    exportFormatPath userOpts (tempFile tmp millis rand pid) =
        tempFile tmp millis rand pid ++ "_format.xml"
    ∧ exportExportPath userOpts (tempFile tmp millis rand pid) =
        tempFile tmp millis rand pid ++ "_export.dat"
    ∧ (bulkExportRun b table userOpts (tempFile tmp millis rand pid) orc).1.head? =
        some (.ensureDirs (tempFile tmp millis rand pid ++ "_format.xml")
          (tempFile tmp millis rand pid ++ "_export.dat"))
    ∧ tempFile tmp millis rand pid =
        tmp ++ "/" ++ natToDec millis ++ "_" ++ natToDec rand ++ "_" ++ natToDec pid := by
  have hf : exportFormatPath userOpts (tempFile tmp millis rand pid) =
      tempFile tmp millis rand pid ++ "_format.xml" := by
    unfold exportFormatPath
    rw [exportMerged_no_file userOpts "formatFile" (by decide) (by decide)]
  have he : exportExportPath userOpts (tempFile tmp millis rand pid) =
      tempFile tmp millis rand pid ++ "_export.dat" := by
    unfold exportExportPath
    rw [exportMerged_no_file userOpts "exportFile" (by decide) (by decide)]
  refine ⟨hf, he, ?_, rfl⟩
  rcases orc with ⟨d, fg, ex, rr, u1, u2⟩
  cases d <;> cases fg <;> cases ex <;> cases rr <;> cases u1 <;> cases u2 <;>
    by_cases h1 : truthyProp (exportMergedOpts userOpts) "read" <;>
    by_cases h2 : truthyProp (exportMergedOpts userOpts) "keepFiles" <;>
    simp [bulkExportRun, h1, h2, hf, he]

/-- The merged export options when the caller sets read to false: keepFiles
is forced on, whatever the caller passed for it. -/
theorem exportMerged_read_false (o : JsObj) (h : getProp o "read" = some (JsVal.bool false)) :
    exportMergedOpts (some o) = [("read", JsVal.bool false), ("keepFiles", JsVal.bool true)] := by
  unfold exportMergedOpts
  cases hk : getProp o "keepFiles" <;>
    simp [mergeOptions, truthyProp, getProp, truthy, setProp, h, hk]

/-- Claim C7: an export call whose options set read to false never deletes
any file, even with keepFiles explicitly false in the same options object;
and with the default options a fully successful run deletes both the format
file and the export file and reports success. -/
theorem claim_C7 (b : BcpCfg) (table : String) (o : JsObj) (base : String) (orc : ExportOracle)
    (fd : FormatData) (out : String) (rs : List Row) :
    (getProp o "read" = some (JsVal.bool false) →
      ∀ p, Effect.unlink p ∉ (bulkExportRun b table (some o) base orc).1)
    ∧ (orc.dirs = .ok () → orc.fmtGen = .ok fd → orc.exec = .ok out → orc.readRes = .ok rs →
      orc.unlinkFmt = .ok () → orc.unlinkExp = .ok () →
      Effect.unlink (base ++ "_format.xml") ∈ (bulkExportRun b table none base orc).1
      ∧ Effect.unlink (base ++ "_export.dat") ∈ (bulkExportRun b table none base orc).1
      ∧ ∃ res, (bulkExportRun b table none base orc).2 = .ok res) := by
  constructor
  · intro hread p hmem
    have hm := exportMerged_read_false o hread
    rcases orc with ⟨d, fg, ex, rr, u1, u2⟩
    cases d <;> cases fg <;> cases ex <;> cases rr <;> cases u1 <;> cases u2 <;>
      simp [bulkExportRun, hm, truthyProp, getProp, truthy] at hmem
  · intro h1 h2 h3 h4 h5 h6
    have hm : exportMergedOpts none = [("read", JsVal.bool true), ("keepFiles", JsVal.bool false)] :=
      rfl
    refine ⟨?_, ?_, ?_⟩ <;>
      simp [bulkExportRun, hm, h1, h2, h3, h4, h5, h6, truthyProp, getProp, truthy,
        exportFormatPath, exportExportPath, exportMerged_no_file]

/-- Witness for claim C7: a concrete call with read false and keepFiles
false performs no deletion, and a default-options successful run deletes both
generated files. -/
theorem claim_C7_witness :
    (∀ p, Effect.unlink p ∉
      (bulkExportRun {} "t" (some [("read", JsVal.bool false), ("keepFiles", JsVal.bool false)])
        "base" ⟨.ok (), .ok ⟨[]⟩, .ok "ok", .ok [], .ok (), .ok ()⟩).1)
    ∧ Effect.unlink ("base" ++ "_format.xml") ∈
      (bulkExportRun {} "t" none "base" ⟨.ok (), .ok ⟨[]⟩, .ok "ok", .ok [], .ok (), .ok ()⟩).1
    ∧ Effect.unlink ("base" ++ "_export.dat") ∈
      (bulkExportRun {} "t" none "base" ⟨.ok (), .ok ⟨[]⟩, .ok "ok", .ok [], .ok (), .ok ()⟩).1
    ∧ ∃ res, (bulkExportRun {} "t" none "base"
        ⟨.ok (), .ok ⟨[]⟩, .ok "ok", .ok [], .ok (), .ok ()⟩).2 = .ok res :=
  ⟨(claim_C7 {} "t" [("read", JsVal.bool false), ("keepFiles", JsVal.bool false)] "base"
      ⟨.ok (), .ok ⟨[]⟩, .ok "ok", .ok [], .ok (), .ok ()⟩ ⟨[]⟩ "ok" []).1 rfl,
    (claim_C7 {} "t" [] "base" ⟨.ok (), .ok ⟨[]⟩, .ok "ok", .ok [], .ok (), .ok ()⟩
      ⟨[]⟩ "ok" []).2 rfl rfl rfl rfl rfl rfl⟩

/-- Claim C9: when every external step succeeds but the captured stdout has
no line matching the rows-copied pattern, bulkExport still succeeds and the
returned details carry rowCount zero; the missing summary is never an
error. -/
theorem claim_C9 (b : BcpCfg) (table : String) (userOpts : Option JsObj) (base : String)
    (orc : ExportOracle) (fd : FormatData) (out : String) (rs : List Row)
    (h1 : orc.dirs = .ok ()) (h2 : orc.fmtGen = .ok fd) (h3 : orc.exec = .ok out)
    (h4 : orc.readRes = .ok rs) (h5 : orc.unlinkFmt = .ok ()) (h6 : orc.unlinkExp = .ok ())
    (hm : rowsCopiedScan out.data = none) :
    ∃ rows d, (bulkExportRun b table userOpts base orc).2 = .ok (rows, d)
      ∧ d.rowCount = 0 := by
  by_cases hr : truthyProp (exportMergedOpts userOpts) "read" <;>
    by_cases hk : truthyProp (exportMergedOpts userOpts) "keepFiles" <;>
    simp [bulkExportRun, h1, h2, h3, h4, h5, h6, hr, hk, hm] <;>
    exact ⟨_, _, ⟨rfl, rfl⟩, rfl⟩

/-- Witness for claim C9: a successful run whose stdout has no summary line
returns success with rowCount zero. -/
theorem claim_C9_witness :
    ∃ rows d,
      (bulkExportRun {} "t" none "base"
        ⟨.ok (), .ok ⟨[]⟩, .ok "no summary here", .ok [], .ok (), .ok ()⟩).2 = .ok (rows, d)
      ∧ d.rowCount = 0 :=
  claim_C9 {} "t" none "base" ⟨.ok (), .ok ⟨[]⟩, .ok "no summary here", .ok [], .ok (), .ok ()⟩
    ⟨[]⟩ "no summary here" [] rfl rfl rfl rfl rfl rfl (by decide)

/-! Claim C1: the column-validation failure of prepareBulkInsert. -/

theorem applyColumns_error (fullTable : String) (lowerNames : List String) :
    ∀ (cols : List String) (fields : List Field) (bad : String),
      firstMissing lowerNames cols = some bad →
      applyColumns fullTable lowerNames cols fields =
        .error (fullTable ++ " does not contain column " ++ bad) := by
  intro cols
  induction cols with
  | nil => intro fields bad h; simp [firstMissing] at h
  | cons c cs ih =>
    intro fields bad h
    simp only [firstMissing] at h
    by_cases hc : (idxOfStr lowerNames (strToLower c)).isSome
    · rw [if_pos hc] at h
      obtain ⟨dex, hdex⟩ := Option.isSome_iff_exists.mp hc
      simp only [applyColumns, hdex]
      exact ih _ bad h
    · rw [if_neg hc] at h
      have hdex : idxOfStr lowerNames (strToLower c) = none :=
        Option.not_isSome_iff_eq_none.mp hc
      simp only [Option.some.injEq] at h
      subst h
      simp [applyColumns, hdex]

/-- Claim C1, counterexample to the frozen wording: at this concrete input
the operation does fail with an error naming the qualified table and the
missing column, yet the trace of the failing run already contains the
format-generation step, an external-process invocation that writes the format
file — so the failure does not occur before any external process is
invoked. -/
theorem claim_C1_counterexample :
    (prepareBulkInsertRun {} "t" ["missing"] none "base"
        ⟨.ok (), .ok ⟨[⟨"Id", "SQLINT", "\t", false⟩]⟩⟩).2 =
      .error "[dbo].[t] does not contain column missing"
    ∧ Effect.formatGen "[dbo].[t]" "base_format.xml" ∈
      (prepareBulkInsertRun {} "t" ["missing"] none "base"
        ⟨.ok (), .ok ⟨[⟨"Id", "SQLINT", "\t", false⟩]⟩⟩).1 :=
  ⟨rfl, by decide⟩

/-- Claim C1 as amended: when directory creation and format generation
succeed and some requested column has no case-insensitive match among the
descriptor's field names, prepareBulkInsert fails with an error naming the
qualified table and the first such column; the failure happens after the
format-generation step (which invokes the external tool and writes the format
file) but before the import file is created and before any data-transfer
invocation — the trace of the failing run is exactly the directory step and
the format-generation step. -/
theorem claim_C1 (b : BcpCfg) (table : String) (columns : List String)
    (userOpts : Option JsObj) (base : String) (orc : PrepOracle) (format : FormatData)
    (badCol : String) (hd : orc.dirs = .ok ()) (hf : orc.fmtGen = .ok format)
    (hbad : firstMissing (format.fields.map fun f => strToLower f.name) columns = some badCol) :
    prepareBulkInsertRun b table columns userOpts base orc =
      ([.ensureDirs (prepFormatPath userOpts base) (prepImportPath userOpts base),
        .formatGen (getQualifiedTable b table) (prepFormatPath userOpts base)],
      .error (getQualifiedTable b table ++ " does not contain column " ++ badCol)) := by
  unfold prepareBulkInsertRun
  rw [hd, hf]
  dsimp only []
  rw [applyColumns_error _ _ _ _ _ hbad]
  rfl

/-- Witness for the amended claim C1 at the counterexample's concrete
input. -/
theorem claim_C1_witness :
    prepareBulkInsertRun {} "t" ["missing"] none "base"
        ⟨.ok (), .ok ⟨[⟨"Id", "SQLINT", "\t", false⟩]⟩⟩ =
      ([.ensureDirs (prepFormatPath none "base") (prepImportPath none "base"),
        .formatGen (getQualifiedTable {} "t") (prepFormatPath none "base")],
      .error (getQualifiedTable {} "t" ++ " does not contain column missing")) :=
  claim_C1 {} "t" ["missing"] none "base" ⟨.ok (), .ok ⟨[⟨"Id", "SQLINT", "\t", false⟩]⟩⟩
    ⟨[⟨"Id", "SQLINT", "\t", false⟩]⟩ "missing" rfl rfl (by decide)

end NodeBcp

